import Mathlib

/-!
# ethparser: the indexing core of `parser/parser.go`

A shallow embedding of `EthParser` (the mutex, the cursor, the subscriber map
and the transaction store), of its three public methods, of the height
decoding in `fetchCurrentBlockNumber`, and of one tick of `startPolling`
together with `processBlock`.

Conventions.

* The Go `int` is the 64-bit one; block numbers are `Int` and the one place
  where the width matters (a reported height of `2^63 - 1`, for which the
  condition `b <= blockNum` of the catch-up loop can never fail) is treated
  explicitly in `startPollingTick`.
* `strings.ToLower` is a parameter `ToLower` of every definition that
  normalizes an address: nothing below depends on its Unicode tables.
  `asciiToLower` is its restriction to ASCII, used to evaluate examples.
* `sync.Mutex` is the field `mu` (`true` = held).  `Lock` on a held mutex does
  not return; a call that cannot return yields `none` (public methods) or a
  `blocked` outcome (the polling goroutine).  Since the polling goroutine is
  the only one that keeps the mutex across calls, a held mutex observed
  between two steps is never released again.
* The remote provider is the record `Rpc`: what the endpoint answers during
  one tick.  `none` stands for any failure of `http.Post` or `json.Unmarshal`.
-/

namespace Ethparser

/-! ## Data model -/

/-- Transaction of `parser.go`: four opaque strings. -/
structure Transaction where
  Hash : String
  From : String
  To : String
  Value : String
deriving DecidableEq, Repr

/-- The mutable part of the Go struct `EthParser`: `mu`, `currentBlock`,
`subscribers` (a `map[string]bool`, read only through lookups, written only
with `true`) and `txStore` (a `map[string][]Transaction`, read only through
lookups).  `rpcEndpoint`, `pollInterval` and `stopCh` are configuration. -/
structure EthParser where
  mu : Bool
  currentBlock : Int
  subscribers : String → Bool
  txStore : String → List Transaction

/-- NewEthParser: empty maps, cursor at the zero value, mutex free. -/
def NewEthParser : EthParser :=
  { mu := false, currentBlock := 0, subscribers := fun _ => false, txStore := fun _ => [] }

/-- Lock of `sync.Mutex`: returns only when the mutex is free. -/
def Lock (p : EthParser) : Option EthParser :=
  if p.mu then none else some { p with mu := true }

/-- Unlock of `sync.Mutex`. -/
def Unlock (p : EthParser) : EthParser :=
  { p with mu := false }

/-- Restriction of `strings.ToLower` to ASCII strings. -/
def asciiToLower (s : String) : String :=
  String.mk (s.data.map Char.toLower)

/-! ## Public methods -/

/-- GetCurrentBlock: the cursor, read under the mutex. -/
def GetCurrentBlock (p : EthParser) : Option (Int × EthParser) :=
  match Lock p with
  | none => none
  | some q => some (q.currentBlock, Unlock q)

/-- Subscribe: lower-case the address, then under the mutex return `false` if
it is already a subscriber and otherwise store `true` for it and return
`true`. -/
def Subscribe (ToLower : String → String) (p : EthParser) (address : String) :
    Option (Bool × EthParser) :=
  let address := ToLower address
  match Lock p with
  | none => none
  | some q =>
    if q.subscribers address then some (false, Unlock q)
    else some (true, Unlock { q with subscribers := Function.update q.subscribers address true })

/-- GetTransactions: lower-case the address and look it up in the store under
the mutex. -/
def GetTransactions (ToLower : String → String) (p : EthParser) (address : String) :
    Option (List Transaction × EthParser) :=
  let address := ToLower address
  match Lock p with
  | none => none
  | some q => some (q.txStore address, Unlock q)

/-! ## Height decoding: `strings.TrimPrefix` and `strconv.ParseInt(s, 16, 64)` -/

/-- The two error values of `strconv` and the failures of the transport and
of the JSON decoding. -/
inductive Error
  | transport
  | ErrSyntax
  | ErrRange
deriving DecidableEq, Repr

deriving instance DecidableEq for Except

/-- TrimPrefix with the prefix `"0x"`: drop one leading `0x` when present. -/
def TrimPrefix0x : List Char → List Char
  | '0' :: 'x' :: rest => rest
  | s => s

/-- The digit value `ParseUint` gives a byte: `0-9`, then letters of either
case counted from ten; any other byte is a syntax error. -/
def digitVal (c : Char) : Option Nat :=
  let n := c.toNat
  if 48 ≤ n ∧ n ≤ 57 then some (n - 48)
  else if 97 ≤ n ∧ n ≤ 122 then some (n - 97 + 10)
  else if 65 ≤ n ∧ n ≤ 90 then some (n - 65 + 10)
  else none

/-- The loop of `strconv.ParseUint` for base 16 and bit size 64, on the
accumulator `n`: `cutoff = maxUint64/16 + 1 = 2^60`, `maxVal = 2^64 - 1`,
arithmetic on `uint64`. -/
def ParseUintLoop : List Char → Nat → Except Error Nat
  | [], n => .ok n
  | c :: cs, n =>
    match digitVal c with
    | none => .error .ErrSyntax
    | some d =>
      if d ≥ 16 then .error .ErrSyntax
      else if n ≥ 1152921504606846976 then .error .ErrRange
      else
        let n16 := (n * 16) % 18446744073709551616
        let n1 := (n16 + d) % 18446744073709551616
        if n1 < n16 ∨ n1 > 18446744073709551615 then .error .ErrRange
        else ParseUintLoop cs n1

/-- ParseUint(s, 16, 64): the empty string is a syntax error. -/
def ParseUint (s : List Char) : Except Error Nat :=
  match s with
  | [] => .error .ErrSyntax
  | _ => ParseUintLoop s 0

/-- ParseInt(s, 16, 64): an optional sign, then `ParseUint`, then the range
check against `2^63`. -/
def ParseInt (s : List Char) : Except Error Int :=
  match s with
  | [] => .error .ErrSyntax
  | c :: rest =>
    let neg := c == '-'
    let body := if c == '+' ∨ c == '-' then rest else c :: rest
    match ParseUint body with
    | .error e => .error e
    | .ok un =>
      if ¬ neg ∧ un ≥ 9223372036854775808 then .error .ErrRange
      else if neg ∧ un > 9223372036854775808 then .error .ErrRange
      else .ok (if neg then - (un : Int) else (un : Int))

/-- The decoding part of `fetchCurrentBlockNumber`, from the `result` string
of the response on. -/
def decodeHeight (result : String) : Except Error Int :=
  ParseInt (TrimPrefix0x result.data)

/-- The hex string `fmt.Sprintf("0x%x", blockNum)`. -/
def hexBlock (blockNum : Int) : String :=
  match blockNum with
  | Int.ofNat n => String.mk ('0' :: 'x' :: Nat.toDigits 16 n)
  | Int.negSucc n => String.mk ('0' :: 'x' :: '-' :: Nat.toDigits 16 (n + 1))

/-! ## The polling goroutine -/

/-- What the endpoint answers during one tick: the `result` string of
`eth_blockNumber` and, per requested hex block number, the decoded
transactions of `eth_getBlockByNumber`; `none` is a failed request. -/
structure Rpc where
  eth_blockNumber : Option String
  eth_getBlockByNumber : String → Option (List Transaction)

/-- fetchCurrentBlockNumber: post, decode the JSON, trim and parse. -/
def fetchCurrentBlockNumber (rpc : Rpc) : Except Error Int :=
  match rpc.eth_blockNumber with
  | none => .error .transport
  | some result => decodeHeight result

/-- What the polling goroutine does that another goroutine, the provider or
the reader of the log can observe: calls of `p.mu.Lock()` and `p.mu.Unlock()`,
the two remote calls, and the two log lines of `startPolling`
(`"Error fetching block number:"` and `"Error processing block %d"`). -/
inductive Event
  | lock
  | unlock
  | blockNumber
  | getBlock (blockNum : Int)
  | logFetchError
  | logBlockError (blockNum : Int)
deriving DecidableEq, Repr

/-- How far the polling goroutine got: `done` when it returned normally,
`blocked` when it stopped for good (inside `Lock`, or in a loop without
exit). -/
inductive Outcome
  | done (p : EthParser) (trace : List Event)
  | blocked (p : EthParser) (trace : List Event)

/-- The state an outcome leaves behind. -/
def Outcome.parser : Outcome → EthParser
  | .done p _ => p
  | .blocked p _ => p

/-- The events of an outcome, oldest first. -/
def Outcome.trace : Outcome → List Event
  | .done _ tr => tr
  | .blocked _ tr => tr

/-- Whether the goroutine came back. -/
def Outcome.completed : Outcome → Bool
  | .done _ _ => true
  | .blocked _ _ => false

/-- The critical section of `processBlock` for one transaction: append it
under the lower-cased sender if that is subscribed, then under the lower-cased
recipient if that is subscribed. -/
def indexTransaction (ToLower : String → String) (tx : Transaction) (q : EthParser) :
    EthParser :=
  let src := ToLower tx.From
  let dst := ToLower tx.To
  let q1 := if q.subscribers src then
      { q with txStore := Function.update q.txStore src (q.txStore src ++ [tx]) }
    else q
  if q1.subscribers dst then
    { q1 with txStore := Function.update q1.txStore dst (q1.txStore dst ++ [tx]) }
  else q1

/-- The `for _, tx := range` loop of `processBlock`: per transaction lock,
index it, unlock. -/
def storeTransactions (ToLower : String → String) :
    List Transaction → EthParser → List Event → Outcome
  | [], p, tr => .done p tr
  | tx :: rest, p, tr =>
    match Lock p with
    | none => .blocked p (tr ++ [Event.lock])
    | some q =>
      storeTransactions ToLower rest (Unlock (indexTransaction ToLower tx q))
        (tr ++ [Event.lock, Event.unlock])

/-- processBlock: post the request for block `blockNum`; a failed request or
decoding returns the error (the Boolean) at once, otherwise the transactions
are filtered into the store. -/
def processBlock (ToLower : String → String) (rpc : Rpc) (blockNum : Int)
    (p : EthParser) (tr : List Event) : Bool × Outcome :=
  match rpc.eth_getBlockByNumber (hexBlock blockNum) with
  | none => (true, .done p (tr ++ [Event.getBlock blockNum]))
  | some txs => (false, storeTransactions ToLower txs p (tr ++ [Event.getBlock blockNum]))

/-- The first `n` rounds of `for b := ...; b <= blockNum; b++`, starting at
`b`: when `processBlock` returns an error it is logged, and in either case the
loop goes on with `b + 1`. -/
def blockLoop (ToLower : String → String) (rpc : Rpc) :
    Nat → Int → EthParser → List Event → Outcome
  | 0, _, p, tr => .done p tr
  | n + 1, b, p, tr =>
    match (processBlock ToLower rpc b p tr).2 with
    | .blocked q tr1 => .blocked q tr1
    | .done q tr1 =>
      blockLoop ToLower rpc n (b + 1) q
        (if (processBlock ToLower rpc b p tr).1 then tr1 ++ [Event.logBlockError b] else tr1)

/-- The largest Go `int`. -/
def maxInt : Int := 9223372036854775807

/-- One tick of `startPolling`: fetch the height (on error log and
`continue`); lock; if the height is above the cursor process the blocks
`currentBlock+1 .. blockNum` and set the cursor to `blockNum`; unlock.
The loop runs `blockNum - currentBlock` rounds and then leaves, except for
`blockNum = maxInt`, where `b <= blockNum` holds for every `int` and the loop
has no exit. -/
def startPollingTick (ToLower : String → String) (rpc : Rpc) (p : EthParser) : Outcome :=
  match fetchCurrentBlockNumber rpc with
  | .error _ => .done p [Event.blockNumber, Event.logFetchError]
  | .ok blockNum =>
    match Lock p with
    | none => .blocked p [Event.blockNumber, Event.lock]
    | some q =>
      if blockNum > q.currentBlock then
        match blockLoop ToLower rpc (blockNum - q.currentBlock).toNat (q.currentBlock + 1) q
            [Event.blockNumber, Event.lock] with
        | .blocked q1 tr => .blocked q1 tr
        | .done q1 tr =>
          if blockNum = maxInt then .blocked q1 tr
          else .done (Unlock { q1 with currentBlock := blockNum }) (tr ++ [Event.unlock])
      else .done (Unlock q) [Event.blockNumber, Event.lock, Event.unlock]

/-! ## Runs -/

/-- A step of a run: a `Subscribe` call or one tick of the polling loop
against what the provider answers at that time. -/
inductive Step
  | subscribe (address : String)
  | tick (rpc : Rpc)

/-- The state after a step; a call that cannot return changes nothing. -/
def Step.apply (ToLower : String → String) (p : EthParser) : Step → EthParser
  | .subscribe a =>
    match Subscribe ToLower p a with
    | none => p
    | some r => r.2
  | .tick rpc => (startPollingTick ToLower rpc p).parser

/-- The state after a sequence of steps from `p`. -/
def runFrom (ToLower : String → String) (p : EthParser) (steps : List Step) : EthParser :=
  steps.foldl (Step.apply ToLower) p

/-- The state after a sequence of steps from a new parser. -/
def run (ToLower : String → String) (steps : List Step) : EthParser :=
  runFrom ToLower NewEthParser steps

/-- The heights the provider reported in the ticks of a run, oldest first (a
tick whose height query failed reports none). -/
def reportedHeights : List Step → List Int
  | [] => []
  | .subscribe _ :: rest => reportedHeights rest
  | .tick rpc :: rest =>
    match fetchCurrentBlockNumber rpc with
    | .ok H => H :: reportedHeights rest
    | .error _ => reportedHeights rest

/-- The highest height reported in a run; `none` while no height has been
reported. -/
def highestReported (steps : List Step) : Option Int :=
  match reportedHeights steps with
  | [] => none
  | H :: rest => some (rest.foldl max H)

/-- What one transaction contributes to the sequence of `A`, in the words of
the specification: once if `A` is its lower-cased sender and subscribed, once
if `A` is its lower-cased recipient and subscribed. -/
def entriesFor (ToLower : String → String) (subs : String → Bool) (A : String)
    (tx : Transaction) : List Transaction :=
  (if ToLower tx.From = A ∧ subs A = true then [tx] else []) ++
  (if ToLower tx.To = A ∧ subs A = true then [tx] else [])

/-- The invariant of the transaction index: whatever is stored for `A` has
`A` as lower-cased sender or recipient, and `A` is a subscriber. -/
def StoreInvariant (ToLower : String → String) (p : EthParser) : Prop :=
  ∀ A t, t ∈ p.txStore A → (ToLower t.From = A ∨ ToLower t.To = A) ∧ p.subscribers A = true

/-- The block numbers requested in a trace, oldest first. -/
def fetched : List Event → List Int
  | [] => []
  | .getBlock b :: rest => b :: fetched rest
  | _ :: rest => fetched rest

/-- Whether a trace makes a remote call while the goroutine holds the mutex;
the first argument says whether it holds it at the start. -/
def callWhileHeld : Bool → List Event → Bool
  | _, [] => false
  | _, .lock :: rest => callWhileHeld true rest
  | _, .unlock :: rest => callWhileHeld false rest
  | held, .blockNumber :: rest => held || callWhileHeld held rest
  | held, .getBlock _ :: rest => held || callWhileHeld held rest
  | held, .logFetchError :: rest => callWhileHeld held rest
  | held, .logBlockError _ :: rest => callWhileHeld held rest

/-- Whether a trace calls `Lock` while the goroutine holds the mutex. -/
def lockWhileHeld : Bool → List Event → Bool
  | _, [] => false
  | held, .lock :: rest => held || lockWhileHeld true rest
  | _, .unlock :: rest => lockWhileHeld false rest
  | held, .blockNumber :: rest => lockWhileHeld held rest
  | held, .getBlock _ :: rest => lockWhileHeld held rest
  | held, .logFetchError :: rest => lockWhileHeld held rest
  | held, .logBlockError _ :: rest => lockWhileHeld held rest

/-- The events of one round of the loop on a block that fails or comes back
without transactions: the request, and the log line when it failed. -/
def quietRound (rpc : Rpc) (b : Int) : List Event :=
  match rpc.eth_getBlockByNumber (hexBlock b) with
  | none => [Event.getBlock b, Event.logBlockError b]
  | some _ => [Event.getBlock b]

/-- The events of `n` such rounds, from block `b` on. -/
def quietRounds (rpc : Rpc) : Nat → Int → List Event
  | 0, _ => []
  | n + 1, b => quietRound rpc b ++ quietRounds rpc n (b + 1)

/-- The `n` block numbers from `b` on, ascending. -/
def blocksFrom : Nat → Int → List Int
  | 0, _ => []
  | n + 1, b => b :: blocksFrom n (b + 1)

/-- Whether an event is a block request or the log line of a failed one. -/
def Event.isRound : Event → Bool
  | .getBlock _ => true
  | .logBlockError _ => true
  | _ => false

/-- How often `A` matches one transaction: once as lower-cased sender, once
as lower-cased recipient, counted only when `A` is subscribed. -/
def matchCount (ToLower : String → String) (subs : String → Bool) (A : String)
    (tx : Transaction) : Nat :=
  (if ToLower tx.From = A ∧ subs A = true then 1 else 0) +
  (if ToLower tx.To = A ∧ subs A = true then 1 else 0)

/-- A hexadecimal digit, by character code: `0-9`, `a-f`, `A-F`. -/
def IsHexDigit (c : Char) : Prop :=
  (48 ≤ c.toNat ∧ c.toNat ≤ 57) ∨ (97 ≤ c.toNat ∧ c.toNat ≤ 102) ∨ (65 ≤ c.toNat ∧ c.toNat ≤ 70)

instance : DecidablePred IsHexDigit := fun c => by
  unfold IsHexDigit
  infer_instance

/-- The number a hexadecimal digit denotes. -/
def hexDigitValue (c : Char) : Nat :=
  if c.toNat ≤ 57 then c.toNat - 48 else if c.toNat ≤ 70 then c.toNat - 55 else c.toNat - 87

/-- The number a string of hexadecimal digits denotes, most significant digit
first. -/
def hexValue (ds : List Char) : Nat :=
  ds.foldl (fun n c => 16 * n + hexDigitValue c) 0

/-- A string less one leading `+` or `-`. -/
def dropSign : List Char → List Char
  | [] => []
  | c :: rest => if c = '+' ∨ c = '-' then rest else c :: rest

/-- The transaction of the test handler. -/
def tx123 : Transaction :=
  { Hash := "0x123", From := "0xabc", To := "0xdef", Value := "0x1" }

/-- The provider of the scenario: height `0x10`, block 16 holds `tx123`,
every other block is empty. -/
def rpc16 : Rpc :=
  { eth_blockNumber := some "0x10",
    eth_getBlockByNumber := fun h => if h = "0x10" then some [tx123] else some [] }

/-- A transaction that `0xabc` sends to itself, the sender in capitals. -/
def txSelf : Transaction :=
  { Hash := "0x9", From := "0xABC", To := "0xabc", Value := "0x1" }

/-- A provider whose blocks each hold the one transaction `txSelf`. -/
def rpcSelf : Rpc :=
  { eth_blockNumber := some "0x1", eth_getBlockByNumber := fun _ => some [txSelf] }

/-- The handler of `parser_test.go`: height `0x10`, and every block holds the
one transaction `tx123`. -/
def testRPCHandler : Rpc :=
  { eth_blockNumber := some "0x10", eth_getBlockByNumber := fun _ => some [tx123] }

/-! ## The mutex and the public methods -/

theorem Lock_free (p : EthParser) (h : p.mu = false) :
    Lock p = some { p with mu := true } := by
  simp [Lock, h]

theorem Lock_held (p : EthParser) (h : p.mu = true) : Lock p = none := by
  simp [Lock, h]

theorem Unlock_Lock (p : EthParser) (h : p.mu = false) :
    Unlock { p with mu := true } = p := by
  cases p
  simp_all [Unlock]

theorem GetCurrentBlock_free (p : EthParser) (h : p.mu = false) :
    GetCurrentBlock p = some (p.currentBlock, p) := by
  simp [GetCurrentBlock, Lock_free p h, Unlock_Lock p h]

theorem GetTransactions_free (ToLower : String → String) (p : EthParser) (a : String)
    (h : p.mu = false) :
    GetTransactions ToLower p a = some (p.txStore (ToLower a), p) := by
  simp [GetTransactions, Lock_free p h, Unlock_Lock p h]

theorem Subscribe_held (ToLower : String → String) (p : EthParser) (a : String)
    (h : p.mu = true) : Subscribe ToLower p a = none := by
  simp [Subscribe, Lock_held p h]

theorem Subscribe_present (ToLower : String → String) (p : EthParser) (a : String)
    (h : p.mu = false) (hs : p.subscribers (ToLower a) = true) :
    Subscribe ToLower p a = some (false, p) := by
  simp [Subscribe, Lock_free p h, hs, Unlock_Lock p h]

theorem Subscribe_absent (ToLower : String → String) (p : EthParser) (a : String)
    (h : p.mu = false) (hs : p.subscribers (ToLower a) = false) :
    Subscribe ToLower p a = some (true,
      { p with subscribers := Function.update p.subscribers (ToLower a) true }) := by
  cases p
  simp_all [Subscribe, Lock, Unlock]

/-! ## The polling goroutine while the mutex is held -/

theorem storeTransactions_held (ToLower : String → String) (txs : List Transaction)
    (p : EthParser) (tr : List Event) (h : p.mu = true) :
    storeTransactions ToLower txs p tr =
      match txs with
      | [] => .done p tr
      | _ :: _ => .blocked p (tr ++ [Event.lock]) := by
  cases txs <;> simp [storeTransactions, Lock_held p h]

theorem processBlock_held_state (ToLower : String → String) (rpc : Rpc) (b : Int)
    (p : EthParser) (tr : List Event) (h : p.mu = true) :
    (processBlock ToLower rpc b p tr).2.parser = p := by
  unfold processBlock
  cases rpc.eth_getBlockByNumber (hexBlock b) with
  | none => rfl
  | some txs =>
    simp only [storeTransactions_held ToLower txs p _ h]
    cases txs <;> rfl

theorem blockLoop_held_state (ToLower : String → String) (rpc : Rpc) (n : Nat) :
    ∀ (b : Int) (p : EthParser) (tr : List Event), p.mu = true →
      (blockLoop ToLower rpc n b p tr).parser = p := by
  induction n with
  | zero => intro b p tr _; rfl
  | succ n ih =>
    intro b p tr h
    have hp := processBlock_held_state ToLower rpc b p tr h
    unfold blockLoop
    cases hpb : (processBlock ToLower rpc b p tr).2 with
    | blocked q tr1 =>
      rw [hpb] at hp
      exact hp
    | done q tr1 =>
      rw [hpb] at hp
      simp only [Outcome.parser] at hp
      subst hp
      exact ih _ _ _ h

/-- A round on a block that fails or is empty, with the mutex held by the
caller: `processBlock` comes back, and after the log line of the loop the
trace has grown by `quietRound`. -/
theorem processBlock_quiet (ToLower : String → String) (rpc : Rpc) (b : Int)
    (p : EthParser) (tr : List Event)
    (h0 : rpc.eth_getBlockByNumber (hexBlock b) = none ∨
      rpc.eth_getBlockByNumber (hexBlock b) = some []) :
    (processBlock ToLower rpc b p tr).2 = .done p (tr ++ [Event.getBlock b]) ∧
    (if (processBlock ToLower rpc b p tr).1 then
        tr ++ [Event.getBlock b] ++ [Event.logBlockError b]
      else tr ++ [Event.getBlock b]) = tr ++ quietRound rpc b := by
  unfold processBlock quietRound
  rcases h0 with h0 | h0 <;> simp [h0, storeTransactions]

/-- Rounds in which every block fails or is empty: the loop comes back with
the state as it was, having requested just these blocks and logged the
failures. -/
theorem blockLoop_quiet (ToLower : String → String) (rpc : Rpc) (n : Nat) :
    ∀ (b : Int) (p : EthParser) (tr : List Event), p.mu = true →
      (∀ i : Nat, i < n → rpc.eth_getBlockByNumber (hexBlock (b + i)) = none ∨
        rpc.eth_getBlockByNumber (hexBlock (b + i)) = some []) →
      blockLoop ToLower rpc n b p tr = .done p (tr ++ quietRounds rpc n b) := by
  induction n with
  | zero => intro b p tr _ _; simp [blockLoop, quietRounds]
  | succ n ih =>
    intro b p tr h hq
    have h0 := hq 0 (Nat.succ_pos n)
    simp only [Nat.cast_zero, add_zero] at h0
    obtain ⟨hstep, hlog⟩ := processBlock_quiet ToLower rpc b p tr h0
    unfold blockLoop
    rw [hstep]
    simp only
    rw [hlog, ih (b + 1) p _ h]
    · simp only [quietRounds, List.append_assoc]
    · intro i hi
      have := hq (i + 1) (Nat.succ_lt_succ hi)
      simp only [Nat.cast_succ] at this
      rw [show b + 1 + (i : Int) = b + ((i : Int) + 1) by ring]
      exact this

/-- A round whose block holds a transaction: `processBlock` calls `Lock` on
the mutex its caller holds, and the loop never comes back. -/
theorem blockLoop_blocked (ToLower : String → String) (rpc : Rpc) (n : Nat) :
    ∀ (b : Int) (p : EthParser) (tr : List Event), p.mu = true →
      (∃ i : Nat, i < n ∧ ∃ tx txs,
        rpc.eth_getBlockByNumber (hexBlock (b + i)) = some (tx :: txs)) →
      (blockLoop ToLower rpc n b p tr).completed = false := by
  induction n with
  | zero =>
    intro b p tr _ h
    obtain ⟨i, hi, _⟩ := h
    exact absurd hi (Nat.not_lt_zero i)
  | succ n ih =>
    intro b p tr h hex
    unfold blockLoop
    have hp := processBlock_held_state ToLower rpc b p tr h
    cases hpb : (processBlock ToLower rpc b p tr).2 with
    | blocked q tr1 => rfl
    | done q tr1 =>
      rw [hpb] at hp
      simp only [Outcome.parser] at hp
      subst hp
      simp only
      apply ih _ _ _ h
      obtain ⟨i, hi, tx, txs, hb⟩ := hex
      cases i with
      | zero =>
        exfalso
        simp only [Nat.cast_zero, add_zero] at hb
        unfold processBlock at hpb
        rw [hb] at hpb
        simp [storeTransactions, Lock_held q h] at hpb
      | succ i =>
        refine ⟨i, Nat.lt_of_succ_lt_succ hi, tx, txs, ?_⟩
        rw [show b + 1 + (i : Int) = b + ((i + 1 : Nat) : Int) by push_cast; ring]
        exact hb

/-! ## One tick -/

theorem tick_error (ToLower : String → String) (rpc : Rpc) (p : EthParser) (e : Error)
    (h : fetchCurrentBlockNumber rpc = .error e) :
    startPollingTick ToLower rpc p = .done p [Event.blockNumber, Event.logFetchError] := by
  simp [startPollingTick, h]

theorem tick_held (ToLower : String → String) (rpc : Rpc) (p : EthParser) (H : Int)
    (h : fetchCurrentBlockNumber rpc = .ok H) (hmu : p.mu = true) :
    startPollingTick ToLower rpc p = .blocked p [Event.blockNumber, Event.lock] := by
  simp [startPollingTick, h, Lock_held p hmu]

theorem tick_low (ToLower : String → String) (rpc : Rpc) (p : EthParser) (H : Int)
    (h : fetchCurrentBlockNumber rpc = .ok H) (hmu : p.mu = false)
    (hH : H ≤ p.currentBlock) :
    startPollingTick ToLower rpc p =
      .done p [Event.blockNumber, Event.lock, Event.unlock] := by
  simp [startPollingTick, h, Lock_free p hmu, not_lt.mpr hH, Unlock_Lock p hmu]

/-- The state a tick leaves: the old one, or the old one with the mutex held
for good, or the old one with the cursor moved up to the reported height. -/
theorem tick_parser_cases (ToLower : String → String) (rpc : Rpc) (p : EthParser) :
    (startPollingTick ToLower rpc p).parser = p ∨
    (p.mu = false ∧ (startPollingTick ToLower rpc p).completed = false ∧
      (startPollingTick ToLower rpc p).parser = { p with mu := true }) ∨
    (∃ H, fetchCurrentBlockNumber rpc = .ok H ∧ p.currentBlock < H ∧ p.mu = false ∧
      (startPollingTick ToLower rpc p).completed = true ∧
      (startPollingTick ToLower rpc p).parser = { p with currentBlock := H }) := by
  cases hf : fetchCurrentBlockNumber rpc with
  | error e => left; rw [tick_error ToLower rpc p e hf]; rfl
  | ok H =>
    cases hmu : p.mu with
    | true => left; rw [tick_held ToLower rpc p H hf hmu]; rfl
    | false =>
      by_cases hH : H ≤ p.currentBlock
      · left; rw [tick_low ToLower rpc p H hf hmu hH]; rfl
      · have hlt : p.currentBlock < H := not_le.mp hH
        have hq : ({ p with mu := true } : EthParser).mu = true := rfl
        have hl := blockLoop_held_state ToLower rpc (H - p.currentBlock).toNat
          (p.currentBlock + 1) { p with mu := true } [Event.blockNumber, Event.lock] hq
        right
        unfold startPollingTick
        simp only [hf, Lock_free p hmu, gt_iff_lt, hlt, if_true]
        cases hb : blockLoop ToLower rpc (H - p.currentBlock).toNat
            (p.currentBlock + 1) { p with mu := true } [Event.blockNumber, Event.lock] with
        | blocked q tr =>
          rw [hb] at hl
          simp only [Outcome.parser] at hl
          subst hl
          left
          exact ⟨trivial, rfl, rfl⟩
        | done q tr =>
          rw [hb] at hl
          simp only [Outcome.parser] at hl
          subst hl
          by_cases hmax : H = maxInt
          · left
            simp only [hmax, if_true]
            exact ⟨trivial, rfl, rfl⟩
          · right
            simp only [hmax, if_false]
            refine ⟨H, rfl, hlt, trivial, rfl, ?_⟩
            cases p
            simp_all [Unlock, Outcome.parser]

/-! ## Traces -/

theorem fetched_append (l1 l2 : List Event) : fetched (l1 ++ l2) = fetched l1 ++ fetched l2 := by
  induction l1 with
  | nil => rfl
  | cons e rest ih => cases e <;> simp [fetched, ih]

theorem storeTransactions_trace (ToLower : String → String) (txs : List Transaction) :
    ∀ (p : EthParser) (tr : List Event),
      ∃ l, (storeTransactions ToLower txs p tr).trace = tr ++ l ∧ fetched l = [] := by
  induction txs with
  | nil => intro p tr; exact ⟨[], by simp [storeTransactions, Outcome.trace], rfl⟩
  | cons tx rest ih =>
    intro p tr
    unfold storeTransactions
    cases Lock p with
    | none => exact ⟨[Event.lock], rfl, rfl⟩
    | some q =>
      obtain ⟨l, hl, hf⟩ := ih (Unlock (indexTransaction ToLower tx q))
        (tr ++ [Event.lock, Event.unlock])
      refine ⟨[Event.lock, Event.unlock] ++ l, ?_, ?_⟩
      · simp only [hl, List.append_assoc]
      · rw [fetched_append, hf]
        rfl

theorem processBlock_trace (ToLower : String → String) (rpc : Rpc) (b : Int)
    (p : EthParser) (tr : List Event) :
    ∃ l, (processBlock ToLower rpc b p tr).2.trace = tr ++ Event.getBlock b :: l ∧
      fetched l = [] := by
  unfold processBlock
  cases rpc.eth_getBlockByNumber (hexBlock b) with
  | none => exact ⟨[], rfl, rfl⟩
  | some txs =>
    obtain ⟨l, hl, hf⟩ := storeTransactions_trace ToLower txs p (tr ++ [Event.getBlock b])
    refine ⟨l, ?_, hf⟩
    simp only [hl, List.append_assoc, List.singleton_append]

/-- The trace after the log line of the loop: the request for `b`, then
events that are no requests. -/
theorem processBlock_logged_trace (ToLower : String → String) (rpc : Rpc) (b : Int)
    (p q : EthParser) (tr tr1 : List Event)
    (h : (processBlock ToLower rpc b p tr).2 = .done q tr1) :
    ∃ l, (if (processBlock ToLower rpc b p tr).1 then tr1 ++ [Event.logBlockError b]
        else tr1) = tr ++ Event.getBlock b :: l ∧ fetched l = [] := by
  obtain ⟨l, hl, hf⟩ := processBlock_trace ToLower rpc b p tr
  rw [h] at hl
  simp only [Outcome.trace] at hl
  subst hl
  cases (processBlock ToLower rpc b p tr).1 with
  | false => exact ⟨l, by simp, hf⟩
  | true =>
    refine ⟨l ++ [Event.logBlockError b], by simp, ?_⟩
    rw [fetched_append, hf]
    rfl

/-- The loop extends the trace, requests only numbers from `b` on, and its
first event, if it runs at all, is the request for block `b`. -/
theorem blockLoop_trace (ToLower : String → String) (rpc : Rpc) (n : Nat) :
    ∀ (b : Int) (p : EthParser) (tr : List Event),
      ∃ l, (blockLoop ToLower rpc n b p tr).trace = tr ++ l ∧
        (∀ x ∈ fetched l, b ≤ x ∧ x < b + n) ∧
        (0 < n → ∃ l1, l = Event.getBlock b :: l1) := by
  induction n with
  | zero =>
    intro b p tr
    refine ⟨[], by simp [blockLoop, Outcome.trace], ?_, ?_⟩
    · intro x hx
      simp [fetched] at hx
    · intro h
      exact absurd h (lt_irrefl 0)
  | succ n ih =>
    intro b p tr
    unfold blockLoop
    cases hpb : (processBlock ToLower rpc b p tr).2 with
    | blocked q tr1 =>
      obtain ⟨l, hl, hf⟩ := processBlock_trace ToLower rpc b p tr
      rw [hpb] at hl
      simp only [Outcome.trace] at hl ⊢
      refine ⟨Event.getBlock b :: l, hl, ?_, fun _ => ⟨l, rfl⟩⟩
      intro x hx
      simp only [fetched, hf, List.mem_singleton] at hx
      subst hx
      constructor
      · exact le_refl _
      · push_cast
        omega
    | done q tr1 =>
      obtain ⟨l, hl, hf⟩ := processBlock_logged_trace ToLower rpc b p q tr tr1 hpb
      simp only
      rw [hl]
      obtain ⟨l2, hl2, hf2, _⟩ := ih (b + 1) q (tr ++ Event.getBlock b :: l)
      refine ⟨Event.getBlock b :: l ++ l2, ?_, ?_, fun _ => ⟨l ++ l2, rfl⟩⟩
      · rw [hl2]
        simp only [List.append_assoc, List.cons_append]
      · intro x hx
        have hx1 : x = b ∨ x ∈ fetched l2 := by
          have e : fetched (Event.getBlock b :: l ++ l2) = b :: fetched l2 := by
            rw [List.cons_append]
            show b :: fetched (l ++ l2) = b :: fetched l2
            rw [fetched_append, hf, List.nil_append]
          rw [e] at hx
          exact List.mem_cons.mp hx
        rcases hx1 with hx | hx
        · subst hx
          constructor
          · exact le_refl _
          · push_cast
            omega
        · have := hf2 x hx
          push_cast
          omega

/-- A loop that comes back has requested exactly the `n` blocks from `b` on,
once each, in ascending order. -/
theorem blockLoop_done_fetched (ToLower : String → String) (rpc : Rpc) (n : Nat) :
    ∀ (b : Int) (p q : EthParser) (tr tr1 : List Event),
      blockLoop ToLower rpc n b p tr = .done q tr1 →
      fetched tr1 = fetched tr ++ blocksFrom n b := by
  induction n with
  | zero =>
    intro b p q tr tr1 h
    simp only [blockLoop, Outcome.done.injEq] at h
    rw [← h.2]
    simp [blocksFrom]
  | succ n ih =>
    intro b p q tr tr1 h
    unfold blockLoop at h
    cases hpb : (processBlock ToLower rpc b p tr).2 with
    | blocked q2 tr2 =>
      rw [hpb] at h
      simp at h
    | done q2 tr2 =>
      rw [hpb] at h
      simp only at h
      obtain ⟨l, hl, hf⟩ := processBlock_logged_trace ToLower rpc b p q2 tr tr2 hpb
      rw [hl] at h
      rw [ih (b + 1) q2 q _ tr1 h, fetched_append]
      show fetched tr ++ b :: fetched l ++ blocksFrom n (b + 1) = _
      rw [hf]
      simp [blocksFrom]

/-- While its caller holds the mutex the loop only requests blocks and logs
failures, and if it does not come back it has ended in a call of `Lock`. -/
theorem blockLoop_held_trace (ToLower : String → String) (rpc : Rpc) (n : Nat) :
    ∀ (b : Int) (p : EthParser) (tr : List Event), p.mu = true →
      ∃ l, (∀ e ∈ l, e.isRound = true) ∧
        (blockLoop ToLower rpc n b p tr = .done p (tr ++ l) ∨
          blockLoop ToLower rpc n b p tr = .blocked p (tr ++ l ++ [Event.lock])) := by
  induction n with
  | zero =>
    intro b p tr _
    exact ⟨[], by simp, Or.inl (by simp [blockLoop])⟩
  | succ n ih =>
    intro b p tr h
    unfold blockLoop processBlock
    cases rpc.eth_getBlockByNumber (hexBlock b) with
    | none =>
      obtain ⟨l, hl, hr⟩ := ih (b + 1) p (tr ++ [Event.getBlock b] ++ [Event.logBlockError b]) h
      refine ⟨Event.getBlock b :: Event.logBlockError b :: l, ?_, ?_⟩
      · intro e he
        rcases List.mem_cons.mp he with he | he
        · subst he; rfl
        · rcases List.mem_cons.mp he with he | he
          · subst he; rfl
          · exact hl e he
      · simpa [List.append_assoc] using hr
    | some txs =>
      cases txs with
      | nil =>
        obtain ⟨l, hl, hr⟩ := ih (b + 1) p (tr ++ [Event.getBlock b]) h
        refine ⟨Event.getBlock b :: l, ?_, ?_⟩
        · intro e he
          rcases List.mem_cons.mp he with he | he
          · subst he; rfl
          · exact hl e he
        · simpa [List.append_assoc, storeTransactions] using hr
      | cons tx rest =>
        refine ⟨[Event.getBlock b], ?_, Or.inr ?_⟩
        · intro e he
          rw [List.mem_singleton.mp he]
          rfl
        · simp [storeTransactions, Lock_held p h]

theorem lockWhileHeld_requests (l : List Event) (h : ∀ e ∈ l, e.isRound = true) :
    lockWhileHeld true (l ++ [Event.lock]) = true := by
  induction l with
  | nil => rfl
  | cons e rest ih =>
    have he := h e (List.mem_cons_self _ _)
    have ih1 := ih (fun e he => h e (List.mem_cons_of_mem _ he))
    cases e <;> simp_all [Event.isRound, lockWhileHeld]

/-- A tick only requests blocks above the cursor it started from. -/
theorem tick_fetched (ToLower : String → String) (rpc : Rpc) (p : EthParser) :
    ∀ x ∈ fetched (startPollingTick ToLower rpc p).trace, p.currentBlock < x := by
  intro x hx
  unfold startPollingTick at hx
  cases hf : fetchCurrentBlockNumber rpc with
  | error e => simp [hf, Outcome.trace, fetched] at hx
  | ok H =>
    rcases Bool.eq_false_or_eq_true p.mu with hmu | hmu
    · simp [hf, Lock_held p hmu, Outcome.trace, fetched] at hx
    · simp only [hf, Lock_free p hmu] at hx
      by_cases hH : H > p.currentBlock
      · simp only [hH, if_true] at hx
        obtain ⟨l, hl, hb, _⟩ := blockLoop_trace ToLower rpc (H - p.currentBlock).toNat
          (p.currentBlock + 1) { p with mu := true } [Event.blockNumber, Event.lock]
        have key : ∀ y ∈ fetched (blockLoop ToLower rpc (H - p.currentBlock).toNat
            (p.currentBlock + 1) { p with mu := true }
            [Event.blockNumber, Event.lock]).trace, p.currentBlock < y := by
          intro y hy
          rw [hl, fetched_append] at hy
          simp only [fetched, List.nil_append] at hy
          have := (hb y hy).1
          omega
        cases hbl : blockLoop ToLower rpc (H - p.currentBlock).toNat
            (p.currentBlock + 1) { p with mu := true } [Event.blockNumber, Event.lock] with
        | blocked q tr =>
          rw [hbl] at hx key
          exact key x hx
        | done q tr =>
          rw [hbl] at hx key
          simp only [Outcome.trace] at key
          by_cases hmax : H = maxInt
          · simp only [hmax, if_true, Outcome.trace] at hx
            exact key x hx
          · simp only [hmax, if_false, Outcome.trace, fetched_append] at hx
            simp only [fetched, List.append_nil] at hx
            exact key x hx
      · simp [hH, Outcome.trace, fetched] at hx

/-- A tick that finds the mutex free and a height above the cursor in which
every block of the range fails or is empty: the cursor moves to the height. -/
theorem tick_quiet (ToLower : String → String) (rpc : Rpc) (p : EthParser) (H : Int)
    (hmu : p.mu = false) (hf : fetchCurrentBlockNumber rpc = .ok H)
    (hlt : p.currentBlock < H) (hmax : H ≠ maxInt)
    (hq : ∀ b, p.currentBlock < b → b ≤ H →
      rpc.eth_getBlockByNumber (hexBlock b) = none ∨
        rpc.eth_getBlockByNumber (hexBlock b) = some []) :
    startPollingTick ToLower rpc p = .done { p with currentBlock := H }
      ([Event.blockNumber, Event.lock] ++
        quietRounds rpc (H - p.currentBlock).toNat (p.currentBlock + 1) ++ [Event.unlock]) := by
  have hloop := blockLoop_quiet ToLower rpc (H - p.currentBlock).toNat (p.currentBlock + 1)
    { p with mu := true } [Event.blockNumber, Event.lock] rfl (by
      intro i hi
      apply hq <;> omega)
  unfold startPollingTick
  simp only [hf, Lock_free p hmu, gt_iff_lt, hlt, if_true, hloop, hmax, if_false]
  cases p
  simp_all [Unlock]

/-- A tick that finds the mutex free and a block with a transaction in its
range stops inside the `Lock` of `processBlock`, holding the mutex. -/
theorem tick_deadlock (ToLower : String → String) (rpc : Rpc) (p : EthParser) (H b : Int)
    (tx : Transaction) (txs : List Transaction)
    (hmu : p.mu = false) (hf : fetchCurrentBlockNumber rpc = .ok H)
    (hb1 : p.currentBlock < b) (hb2 : b ≤ H)
    (hblock : rpc.eth_getBlockByNumber (hexBlock b) = some (tx :: txs)) :
    ∃ l, (∀ e ∈ l, e.isRound = true) ∧
      startPollingTick ToLower rpc p =
        .blocked { p with mu := true } ([Event.blockNumber, Event.lock] ++ l ++ [Event.lock]) := by
  have hlt : p.currentBlock < H := lt_of_lt_of_le hb1 hb2
  have hblocked := blockLoop_blocked ToLower rpc (H - p.currentBlock).toNat (p.currentBlock + 1)
    { p with mu := true } [Event.blockNumber, Event.lock] rfl
    ⟨(b - p.currentBlock - 1).toNat, by omega, tx, txs, by
      rw [show p.currentBlock + 1 + ((b - p.currentBlock - 1).toNat : Int) = b by omega]
      exact hblock⟩
  obtain ⟨l, hl, hr⟩ := blockLoop_held_trace ToLower rpc (H - p.currentBlock).toNat
    (p.currentBlock + 1) { p with mu := true } [Event.blockNumber, Event.lock] rfl
  rcases hr with hr | hr
  · rw [hr] at hblocked
    exact absurd hblocked (by simp [Outcome.completed])
  · refine ⟨l, hl, ?_⟩
    unfold startPollingTick
    simp only [hf, Lock_free p hmu, gt_iff_lt, hlt, if_true, hr]

/-! ## `processBlock` entered with the mutex free -/

theorem indexTransaction_spec (ToLower : String → String) (tx : Transaction) (q : EthParser) :
    (indexTransaction ToLower tx q).mu = q.mu ∧
    (indexTransaction ToLower tx q).currentBlock = q.currentBlock ∧
    (indexTransaction ToLower tx q).subscribers = q.subscribers ∧
    ∀ A, (indexTransaction ToLower tx q).txStore A =
      q.txStore A ++ entriesFor ToLower q.subscribers A tx := by
  unfold indexTransaction
  cases h1 : q.subscribers (ToLower tx.From) <;> cases h2 : q.subscribers (ToLower tx.To)
  all_goals
    simp only [h1, h2, if_true, if_false, Bool.false_eq_true, true_and]
    intro A
    unfold entriesFor
    by_cases ha : ToLower tx.From = A
    · rw [ha] at h1
      by_cases hb : ToLower tx.To = A
      · rw [hb] at h2
        simp_all [Function.update_apply]
      · simp [ha, hb, Function.update_apply, h1, h2, Ne.symm hb]
    · by_cases hb : ToLower tx.To = A
      · rw [hb] at h2
        simp [ha, hb, Function.update_apply, h1, h2, Ne.symm ha]
      · simp [ha, hb, Function.update_apply, h1, h2, Ne.symm ha, Ne.symm hb]

/-- With the mutex free the filter loop of `processBlock` comes back and has
appended, for every address, the entries of each transaction in block order. -/
theorem storeTransactions_free (ToLower : String → String) (txs : List Transaction) :
    ∀ (p : EthParser) (tr : List Event), p.mu = false →
      ∃ q tr1, storeTransactions ToLower txs p tr = .done q tr1 ∧ q.mu = false ∧
        q.currentBlock = p.currentBlock ∧ q.subscribers = p.subscribers ∧
        ∀ A, q.txStore A = p.txStore A ++ txs.flatMap (entriesFor ToLower p.subscribers A) := by
  induction txs with
  | nil =>
    intro p tr h
    exact ⟨p, tr, rfl, h, rfl, rfl, by simp⟩
  | cons tx rest ih =>
    intro p tr h
    obtain ⟨_, hc, hs, hst⟩ := indexTransaction_spec ToLower tx { p with mu := true }
    obtain ⟨q, tr1, hq, hmu, hcur, hsub, hst1⟩ :=
      ih (Unlock (indexTransaction ToLower tx { p with mu := true }))
        (tr ++ [Event.lock, Event.unlock]) rfl
    refine ⟨q, tr1, ?_, hmu, ?_, ?_, ?_⟩
    · simp only [storeTransactions, Lock_free p h]
      exact hq
    · rw [hcur]
      exact hc
    · rw [hsub]
      exact hs
    · intro A
      rw [hst1 A]
      simp only [Unlock, List.flatMap_cons]
      rw [hst A, hs, List.append_assoc]

/-- Whatever the mutex, `processBlock` keeps the subscribers and only appends
entries of the block's transactions to the store. -/
theorem processBlock_store (ToLower : String → String) (rpc : Rpc) (b : Int)
    (p : EthParser) (tr : List Event) :
    (processBlock ToLower rpc b p tr).2.parser.subscribers = p.subscribers ∧
    ∀ A t, t ∈ (processBlock ToLower rpc b p tr).2.parser.txStore A →
      t ∈ p.txStore A ∨ ∃ tx, t ∈ entriesFor ToLower p.subscribers A tx := by
  cases hmu : p.mu with
  | true =>
    rw [processBlock_held_state ToLower rpc b p tr hmu]
    exact ⟨rfl, fun A t h => Or.inl h⟩
  | false =>
    unfold processBlock
    cases rpc.eth_getBlockByNumber (hexBlock b) with
    | none => exact ⟨rfl, fun A t h => Or.inl h⟩
    | some txs =>
      obtain ⟨q, tr1, hq, _, _, hsub, hst⟩ :=
        storeTransactions_free ToLower txs p (tr ++ [Event.getBlock b]) hmu
      simp only [hq, Outcome.parser]
      refine ⟨hsub, ?_⟩
      intro A t ht
      rw [hst A, List.mem_append, List.mem_flatMap] at ht
      rcases ht with ht | ⟨tx, _, ht⟩
      · exact Or.inl ht
      · exact Or.inr ⟨tx, ht⟩

theorem mem_entriesFor (ToLower : String → String) (subs : String → Bool) (A : String)
    (tx t : Transaction) (h : t ∈ entriesFor ToLower subs A tx) :
    (ToLower t.From = A ∨ ToLower t.To = A) ∧ subs A = true := by
  unfold entriesFor at h
  rw [List.mem_append] at h
  rcases h with h | h
  · split at h
    · rename_i hc
      simp only [List.mem_singleton] at h
      subst h
      exact ⟨Or.inl hc.1, hc.2⟩
    · simp at h
  · split at h
    · rename_i hc
      simp only [List.mem_singleton] at h
      subst h
      exact ⟨Or.inr hc.1, hc.2⟩
    · simp at h

theorem processBlock_invariant (ToLower : String → String) (rpc : Rpc) (b : Int)
    (p : EthParser) (tr : List Event) (h : StoreInvariant ToLower p) :
    StoreInvariant ToLower (processBlock ToLower rpc b p tr).2.parser := by
  obtain ⟨hsub, hst⟩ := processBlock_store ToLower rpc b p tr
  intro A t ht
  rw [hsub]
  rcases hst A t ht with h1 | ⟨tx, h1⟩
  · exact h A t h1
  · exact mem_entriesFor ToLower p.subscribers A tx t h1

/-! ## Counting entries -/

theorem entriesFor_eq_replicate (ToLower : String → String) (subs : String → Bool)
    (A : String) (t : Transaction) :
    entriesFor ToLower subs A t = List.replicate (matchCount ToLower subs A t) t := by
  unfold entriesFor matchCount
  split_ifs <;> rfl

theorem matchCount_le_two (ToLower : String → String) (subs : String → Bool)
    (A : String) (t : Transaction) : matchCount ToLower subs A t ≤ 2 := by
  unfold matchCount
  split_ifs <;> omega

theorem matchCount_le_one (ToLower : String → String) (subs : String → Bool)
    (A : String) (t : Transaction) (h : ¬ (ToLower t.From = A ∧ ToLower t.To = A)) :
    matchCount ToLower subs A t ≤ 1 := by
  unfold matchCount
  split_ifs with h1 h2 <;> first | omega | exact absurd ⟨h1.1, h2.1⟩ h

theorem matchCount_self (ToLower : String → String) (subs : String → Bool)
    (A : String) (t : Transaction) (h1 : ToLower t.From = A) (h2 : ToLower t.To = A)
    (hs : subs A = true) : matchCount ToLower subs A t = 2 := by
  simp [matchCount, h1, h2, hs]

/-- In the entries a duplicate-free block contributes to `A`, a transaction
occurs as often as `A` matches it, and not at all if it is not in the block. -/
theorem count_entries (ToLower : String → String) (subs : String → Bool) (A : String)
    (u : Transaction) (txs : List Transaction) (hnd : txs.Nodup) :
    (txs.flatMap (entriesFor ToLower subs A)).count u =
      if u ∈ txs then matchCount ToLower subs A u else 0 := by
  induction txs with
  | nil => simp
  | cons t rest ih =>
    obtain ⟨hnot, hrest⟩ := List.nodup_cons.mp hnd
    rw [List.flatMap_cons, List.count_append, ih hrest, entriesFor_eq_replicate,
      List.count_replicate]
    by_cases htu : t = u
    · subst htu
      simp [hnot]
    · have hut : ¬ u = t := fun h => htu h.symm
      simp [htu, hut]

/-- The store after one `processBlock`, counted: what was there plus, when
the mutex was free and the request succeeded, the entries of the block. -/
theorem processBlock_count (ToLower : String → String) (rpc : Rpc) (b : Int)
    (p : EthParser) (tr : List Event) (txs : List Transaction)
    (hfetch : rpc.eth_getBlockByNumber (hexBlock b) = some txs) (hnd : txs.Nodup)
    (A : String) (u : Transaction) :
    ((processBlock ToLower rpc b p tr).2.parser.txStore A).count u =
      (p.txStore A).count u +
        if p.mu = false ∧ u ∈ txs then matchCount ToLower p.subscribers A u else 0 := by
  rcases Bool.eq_false_or_eq_true p.mu with hmu | hmu
  · rw [processBlock_held_state ToLower rpc b p tr hmu]
    simp [hmu]
  · obtain ⟨q, tr1, hq, _, _, _, hst⟩ :=
      storeTransactions_free ToLower txs p (tr ++ [Event.getBlock b]) hmu
    have hpb : (processBlock ToLower rpc b p tr).2 = .done q tr1 := by
      unfold processBlock
      rw [hfetch]
      exact hq
    rw [hpb]
    simp only [Outcome.parser]
    rw [hst A, List.count_append, count_entries ToLower p.subscribers A u txs hnd]
    simp [hmu]

/-! ## Steps and runs -/

theorem Subscribe_cases (ToLower : String → String) (p : EthParser) (a : String) :
    Subscribe ToLower p a = none ∨ Subscribe ToLower p a = some (false, p) ∨
    Subscribe ToLower p a = some (true,
      { p with subscribers := Function.update p.subscribers (ToLower a) true }) := by
  rcases Bool.eq_false_or_eq_true p.mu with hmu | hmu
  · exact Or.inl (Subscribe_held ToLower p a hmu)
  · rcases Bool.eq_false_or_eq_true (p.subscribers (ToLower a)) with hs | hs
    · exact Or.inr (Or.inl (Subscribe_present ToLower p a hmu hs))
    · exact Or.inr (Or.inr (Subscribe_absent ToLower p a hmu hs))

/-- What any step does to the state: the store stays, subscribers are only
added, and the cursor stays or moves up to the height this tick reported. -/
theorem apply_effect (ToLower : String → String) (p : EthParser) (st : Step) :
    (Step.apply ToLower p st).txStore = p.txStore ∧
    (∀ k, p.subscribers k = true → (Step.apply ToLower p st).subscribers k = true) ∧
    ((Step.apply ToLower p st).currentBlock = p.currentBlock ∨
      ∃ rpc H, st = .tick rpc ∧ fetchCurrentBlockNumber rpc = .ok H ∧
        p.currentBlock < H ∧ (Step.apply ToLower p st).currentBlock = H) := by
  cases st with
  | subscribe a =>
    simp only [Step.apply]
    rcases Subscribe_cases ToLower p a with h | h | h <;> rw [h]
    · exact ⟨rfl, fun k hk => hk, Or.inl rfl⟩
    · exact ⟨rfl, fun k hk => hk, Or.inl rfl⟩
    · refine ⟨rfl, ?_, Or.inl rfl⟩
      intro k hk
      by_cases hka : k = ToLower a
      · subst hka
        simp
      · simp [Function.update_noteq hka, hk]
  | tick rpc =>
    simp only [Step.apply]
    rcases tick_parser_cases ToLower rpc p with h | ⟨_, _, h⟩ | ⟨H, hf, hlt, _, _, h⟩ <;> rw [h]
    · exact ⟨rfl, fun k hk => hk, Or.inl rfl⟩
    · exact ⟨rfl, fun k hk => hk, Or.inl rfl⟩
    · exact ⟨rfl, fun k hk => hk, Or.inr ⟨rpc, H, rfl, hf, hlt, rfl⟩⟩

theorem runFrom_snoc (ToLower : String → String) (p : EthParser) (steps : List Step)
    (st : Step) :
    runFrom ToLower p (steps ++ [st]) = Step.apply ToLower (runFrom ToLower p steps) st := by
  simp [runFrom, List.foldl_append]

theorem run_snoc (ToLower : String → String) (steps : List Step) (st : Step) :
    run ToLower (steps ++ [st]) = Step.apply ToLower (run ToLower steps) st :=
  runFrom_snoc ToLower NewEthParser steps st

theorem apply_invariant (ToLower : String → String) (p : EthParser) (st : Step)
    (h : StoreInvariant ToLower p) : StoreInvariant ToLower (Step.apply ToLower p st) := by
  obtain ⟨hst, hsub, _⟩ := apply_effect ToLower p st
  intro A t ht
  rw [hst] at ht
  exact ⟨(h A t ht).1, hsub A (h A t ht).2⟩

theorem runFrom_invariant (ToLower : String → String) (steps : List Step) :
    ∀ p : EthParser, StoreInvariant ToLower p → StoreInvariant ToLower (runFrom ToLower p steps) := by
  induction steps with
  | nil => intro p h; exact h
  | cons st rest ih =>
    intro p h
    exact ih _ (apply_invariant ToLower p st h)

theorem runFrom_txStore (ToLower : String → String) (steps : List Step) :
    ∀ p : EthParser, (runFrom ToLower p steps).txStore = p.txStore := by
  induction steps with
  | nil => intro p; rfl
  | cons st rest ih =>
    intro p
    exact (ih _).trans (apply_effect ToLower p st).1

theorem reportedHeights_snoc (steps : List Step) (st : Step) :
    reportedHeights (steps ++ [st]) = reportedHeights steps ++ reportedHeights [st] := by
  induction steps with
  | nil => simp [reportedHeights]
  | cons s rest ih =>
    cases s with
    | subscribe a => simpa [reportedHeights] using ih
    | tick rpc =>
      simp only [List.cons_append, reportedHeights]
      cases fetchCurrentBlockNumber rpc <;> simp [ih]

theorem le_foldl_max (l : List Int) :
    ∀ H : Int, H ≤ l.foldl max H ∧ ∀ x ∈ l, x ≤ l.foldl max H := by
  induction l with
  | nil => intro H; simp
  | cons y ys ih =>
    intro H
    obtain ⟨h1, h2⟩ := ih (max H y)
    refine ⟨le_trans (le_max_left H y) h1, ?_⟩
    intro x hx
    rcases List.mem_cons.mp hx with h | h
    · subst h
      exact le_trans (le_max_right H x) h1
    · exact h2 x h

/-- A reported height is at most the highest one. -/
theorem le_highestReported (steps : List Step) (x : Int) (hx : x ∈ reportedHeights steps)
    (H : Int) (hH : highestReported steps = some H) : x ≤ H := by
  unfold highestReported at hH
  cases hr : reportedHeights steps with
  | nil =>
    rw [hr] at hx
    simp at hx
  | cons y ys =>
    rw [hr] at hH hx
    simp only [Option.some.injEq] at hH
    subst hH
    rcases List.mem_cons.mp hx with h | h
    · subst h
      exact (le_foldl_max ys x).1
    · exact (le_foldl_max ys y).2 x h

theorem run_cursor (ToLower : String → String) (steps : List Step) :
    (run ToLower steps).currentBlock = 0 ∨
      (run ToLower steps).currentBlock ∈ reportedHeights steps := by
  induction steps using List.reverseRecOn with
  | nil => exact Or.inl rfl
  | append_singleton steps st ih =>
    rw [run_snoc, reportedHeights_snoc]
    rcases (apply_effect ToLower (run ToLower steps) st).2.2 with h | ⟨rpc, H, hst, hf, _, h⟩
    · rw [h]
      rcases ih with ih | ih
      · exact Or.inl ih
      · exact Or.inr (List.mem_append_left _ ih)
    · right
      rw [h, hst]
      apply List.mem_append_right
      simp [reportedHeights, hf]

theorem run_cursor_nonneg (ToLower : String → String) (steps : List Step) :
    0 ≤ (run ToLower steps).currentBlock := by
  induction steps using List.reverseRecOn with
  | nil => exact le_refl _
  | append_singleton steps st ih =>
    rw [run_snoc]
    rcases (apply_effect ToLower (run ToLower steps) st).2.2 with h | ⟨_, H, _, _, hlt, h⟩
    · rw [h]
      exact ih
    · rw [h]
      exact le_trans ih (le_of_lt hlt)

theorem mem_blocksFrom (n : Nat) : ∀ (b x : Int), x ∈ blocksFrom n b ↔ b ≤ x ∧ x < b + n := by
  induction n with
  | zero =>
    intro b x
    simp only [blocksFrom, List.not_mem_nil, Nat.cast_zero, add_zero, false_iff]
    omega
  | succ n ih =>
    intro b x
    simp only [blocksFrom, List.mem_cons, ih (b + 1) x]
    push_cast
    omega

theorem fetched_quietRounds (rpc : Rpc) (n : Nat) :
    ∀ b : Int, fetched (quietRounds rpc n b) = blocksFrom n b := by
  induction n with
  | zero => intro b; rfl
  | succ n ih =>
    intro b
    simp only [quietRounds, blocksFrom, fetched_append, ih (b + 1)]
    unfold quietRound
    cases rpc.eth_getBlockByNumber (hexBlock b) <;> rfl

/-- A failed block of the range has its log line among the quiet rounds, and
only a failed block has one. -/
theorem log_quietRounds (rpc : Rpc) (n : Nat) :
    ∀ (b x : Int), Event.logBlockError x ∈ quietRounds rpc n b ↔
      (b ≤ x ∧ x < b + n) ∧ rpc.eth_getBlockByNumber (hexBlock x) = none := by
  induction n with
  | zero =>
    intro b x
    simp only [quietRounds, List.not_mem_nil, Nat.cast_zero, add_zero, false_iff]
    omega
  | succ n ih =>
    intro b x
    simp only [quietRounds, List.mem_append, ih (b + 1) x]
    have hround : Event.logBlockError x ∈ quietRound rpc b ↔
        x = b ∧ rpc.eth_getBlockByNumber (hexBlock x) = none := by
      unfold quietRound
      cases hb : rpc.eth_getBlockByNumber (hexBlock b) with
      | none =>
        simp only [List.mem_cons, List.mem_singleton, Event.logBlockError.injEq,
          reduceCtorEq, false_or, List.not_mem_nil, or_false]
        constructor
        · intro h
          subst h
          exact ⟨rfl, hb⟩
        · intro h
          exact h.1
      | some txs =>
        simp only [List.mem_singleton, reduceCtorEq, false_iff, not_and]
        intro h
        subst h
        rw [hb]
        simp
    rw [hround]
    push_cast
    constructor
    · rintro (⟨h1, h2⟩ | ⟨h1, h2⟩)
      · exact ⟨by omega, h2⟩
      · exact ⟨by omega, h2⟩
    · rintro ⟨h1, h2⟩
      by_cases hx : x = b
      · exact Or.inl ⟨hx, h2⟩
      · exact Or.inr ⟨by omega, h2⟩

/-- A tick that completes on a height above its cursor has requested exactly
the blocks between the two, once each and in ascending order, and has moved
the cursor to the height. -/
theorem tick_completed_fetched (ToLower : String → String) (rpc : Rpc) (p : EthParser)
    (H : Int) (hf : fetchCurrentBlockNumber rpc = .ok H) (hlt : p.currentBlock < H)
    (hc : (startPollingTick ToLower rpc p).completed = true) :
    fetched (startPollingTick ToLower rpc p).trace =
      blocksFrom (H - p.currentBlock).toNat (p.currentBlock + 1) ∧
    (startPollingTick ToLower rpc p).parser.currentBlock = H := by
  rcases Bool.eq_false_or_eq_true p.mu with hmu | hmu
  · rw [tick_held ToLower rpc p H hf hmu] at hc
    simp [Outcome.completed] at hc
  · unfold startPollingTick at hc ⊢
    simp only [hf, Lock_free p hmu, gt_iff_lt, hlt, if_true] at hc ⊢
    cases hbl : blockLoop ToLower rpc (H - p.currentBlock).toNat
        (p.currentBlock + 1) { p with mu := true } [Event.blockNumber, Event.lock] with
    | blocked q tr =>
      rw [hbl] at hc
      simp [Outcome.completed] at hc
    | done q tr =>
      rw [hbl] at hc
      by_cases hmax : H = maxInt
      · simp [hmax, Outcome.completed] at hc
      · have hfe := blockLoop_done_fetched ToLower rpc _ _ _ _ _ _ hbl
        simp only [hmax, if_false, Outcome.trace, Outcome.parser, Unlock, fetched_append, hfe]
        simp [fetched]

/-- C1: from a state whose mutex is free, `Subscribe a` returns `true` exactly
when the lower-cased address was not a subscriber, leaves cursor and store
alone, and makes the subscriber set the old one plus the lower-cased address;
a second call with any address of the same lower-casing then returns `false`
and changes nothing. -/
theorem Subscribe_contract (ToLower : String → String) (p : EthParser) (a : String)
    (hmu : p.mu = false) :
    ∃ p', Subscribe ToLower p a = some (!(p.subscribers (ToLower a)), p') ∧
      p'.mu = false ∧ p'.currentBlock = p.currentBlock ∧ p'.txStore = p.txStore ∧
      (∀ k, p'.subscribers k = true ↔ (p.subscribers k = true ∨ k = ToLower a)) ∧
      (∀ a', ToLower a' = ToLower a → Subscribe ToLower p' a' = some (false, p')) := by
  cases hs : p.subscribers (ToLower a)
  · refine ⟨_, Subscribe_absent ToLower p a hmu hs, hmu, rfl, rfl, ?_, ?_⟩
    · intro k
      by_cases hk : k = ToLower a
      · subst hk
        simp
      · simp [Function.update_noteq hk, hk]
    · intro a' ha'
      exact Subscribe_present ToLower _ a' hmu (by rw [ha']; exact Function.update_same _ _ _)
  · refine ⟨p, Subscribe_present ToLower p a hmu hs, hmu, rfl, rfl, ?_, ?_⟩
    · intro k
      constructor
      · intro h
        exact Or.inl h
      · rintro (h | h)
        · exact h
        · rw [h]
          exact hs
    · intro a' ha'
      apply Subscribe_present _ _ _ hmu
      rw [ha']
      exact hs

/-- C1, on a new parser: `Subscribe "0xabc"` returns `true`, and the same call
on the state it leaves returns `false`. -/
theorem Subscribe_contract_witness :
    NewEthParser.mu = false ∧
    ∃ p', Subscribe asciiToLower NewEthParser "0xabc" = some (true, p') ∧
      p'.subscribers "0xabc" = true ∧ p'.subscribers "0xdef" = false ∧
      Subscribe asciiToLower p' "0xABC" = some (false, p') := by
  refine ⟨rfl, ?_⟩
  obtain ⟨p', h1, _, _, _, h5, h6⟩ := Subscribe_contract asciiToLower NewEthParser "0xabc" rfl
  refine ⟨p', h1, ?_, ?_, h6 "0xABC" (by decide)⟩
  · exact (h5 "0xabc").2 (Or.inr (by decide))
  · cases h : p'.subscribers "0xdef"
    · rfl
    · rcases (h5 "0xdef").1 h with h' | h'
      · exact absurd h' (by decide)
      · exact absurd h' (by decide)

/-- C6: two addresses with the same lower-casing are interchangeable:
`GetTransactions` gives the same answer for both, `Subscribe` returns the
same Boolean and the same state for both, and with the mutex free both calls
do return. -/
theorem same_lowercase_same_observations (ToLower : String → String) (p : EthParser)
    (a a' : String) (h : ToLower a = ToLower a') :
    GetTransactions ToLower p a = GetTransactions ToLower p a' ∧
    Subscribe ToLower p a = Subscribe ToLower p a' ∧
    (p.mu = false →
      GetTransactions ToLower p a = some (p.txStore (ToLower a), p) ∧
      (Subscribe ToLower p a).isSome = true) := by
  refine ⟨?_, ?_, ?_⟩
  · simp [GetTransactions, h]
  · simp [Subscribe, h]
  · intro hmu
    refine ⟨GetTransactions_free ToLower p a hmu, ?_⟩
    rcases Subscribe_cases ToLower p a with h1 | h1 | h1
    · simp [Subscribe, Lock_free p hmu] at h1
      split at h1 <;> simp at h1
    · simp [h1]
    · simp [h1]

/-- C6, on `"0xABC"` and `"0xabc"`, in the state after `Subscribe "0xAbC"`:
both spellings read the same sequence and both are refused as duplicates. -/
theorem same_lowercase_same_observations_witness :
    asciiToLower "0xABC" = asciiToLower "0xabc" ∧
    GetTransactions asciiToLower (run asciiToLower [.subscribe "0xAbC"]) "0xABC" =
      GetTransactions asciiToLower (run asciiToLower [.subscribe "0xAbC"]) "0xabc" ∧
    Subscribe asciiToLower (run asciiToLower [.subscribe "0xAbC"]) "0xABC" =
      Subscribe asciiToLower (run asciiToLower [.subscribe "0xAbC"]) "0xabc" ∧
    (Subscribe asciiToLower (run asciiToLower [.subscribe "0xAbC"]) "0xABC").map (fun r => r.1)
      = some false :=
  ⟨by decide,
    (same_lowercase_same_observations asciiToLower (run asciiToLower [.subscribe "0xAbC"])
      "0xABC" "0xabc" (by decide)).1,
    (same_lowercase_same_observations asciiToLower (run asciiToLower [.subscribe "0xAbC"])
      "0xABC" "0xabc" (by decide)).2.1,
    by decide⟩

/-- C4, refuted: a new parser and one tick in which the provider reports
`"0x-10"`, the height -16.  The cursor, still 0, exceeds the highest (the
only) height reported so far. -/
theorem cursor_above_negative_height :
    fetchCurrentBlockNumber ⟨some "0x-10", fun _ => some []⟩ = .ok (-16) ∧
    reportedHeights [.tick ⟨some "0x-10", fun _ => some []⟩] = [-16] ∧
    highestReported [.tick ⟨some "0x-10", fun _ => some []⟩] = some (-16) ∧
    (run asciiToLower [.tick ⟨some "0x-10", fun _ => some []⟩]).currentBlock = 0 ∧
    ¬ (run asciiToLower [.tick ⟨some "0x-10", fun _ => some []⟩]).currentBlock ≤ -16 := by
  decide

/-- C4, amended: the cursor of a new parser is 0 and `GetCurrentBlock`
returns it; along any run of `Subscribe` calls and ticks the cursor never
decreases from one step to the next, is never negative, and is 0 or one of
the heights reported so far, so that it never exceeds the highest height
reported so far unless it is still 0 and that height is negative; it is what
`GetCurrentBlock` returns whenever the mutex is free; a tick whose height
query fails logs the error and leaves the whole state unchanged. -/
theorem cursor_monotone_bounded (ToLower : String → String) (steps : List Step) :
    GetCurrentBlock NewEthParser = some (0, NewEthParser) ∧
    (∀ st, (run ToLower steps).currentBlock ≤ (run ToLower (steps ++ [st])).currentBlock) ∧
    0 ≤ (run ToLower steps).currentBlock ∧
    ((run ToLower steps).currentBlock = 0 ∨
      (run ToLower steps).currentBlock ∈ reportedHeights steps) ∧
    (∀ H, highestReported steps = some H →
      (run ToLower steps).currentBlock ≤ H ∨ ((run ToLower steps).currentBlock = 0 ∧ H < 0)) ∧
    ((run ToLower steps).mu = false → GetCurrentBlock (run ToLower steps) =
      some ((run ToLower steps).currentBlock, run ToLower steps)) ∧
    (∀ p rpc e, fetchCurrentBlockNumber rpc = .error e →
      startPollingTick ToLower rpc p = .done p [Event.blockNumber, Event.logFetchError]) ∧
    (∀ rpc e, fetchCurrentBlockNumber rpc = .error e →
      run ToLower (steps ++ [.tick rpc]) = run ToLower steps) := by
  refine ⟨rfl, ?_, run_cursor_nonneg ToLower steps, run_cursor ToLower steps, ?_,
    GetCurrentBlock_free _, ?_, ?_⟩
  · intro st
    rw [run_snoc]
    rcases (apply_effect ToLower (run ToLower steps) st).2.2 with h | ⟨_, H, _, _, hlt, h⟩
    · exact le_of_eq h.symm
    · rw [h]
      exact le_of_lt hlt
  · intro H hH
    rcases run_cursor ToLower steps with h | h
    · by_cases hneg : H < 0
      · exact Or.inr ⟨h, hneg⟩
      · left
        rw [h]
        exact not_lt.mp hneg
    · exact Or.inl (le_highestReported steps _ h H hH)
  · intro p rpc e h
    exact tick_error ToLower rpc p e h
  · intro rpc e h
    rw [run_snoc]
    simp only [Step.apply, tick_error ToLower rpc _ e h, Outcome.parser]

/-- C4, amended, on a run: a failed height query, then a reported height of
16 with empty blocks, then a reported height of 2: the cursor goes 0, 0, 16,
16 and ends at the highest height reported, 16. -/
theorem cursor_monotone_bounded_witness :
    (run asciiToLower [.tick ⟨none, fun _ => some []⟩]).currentBlock = 0 ∧
    (run asciiToLower [.tick ⟨none, fun _ => some []⟩,
      .tick ⟨some "0x10", fun _ => some []⟩]).currentBlock = 16 ∧
    (run asciiToLower [.tick ⟨none, fun _ => some []⟩, .tick ⟨some "0x10", fun _ => some []⟩,
      .tick ⟨some "0x2", fun _ => some []⟩]).currentBlock = 16 ∧
    highestReported [.tick ⟨none, fun _ => some []⟩, .tick ⟨some "0x10", fun _ => some []⟩,
      .tick ⟨some "0x2", fun _ => some []⟩] = some 16 ∧
    ((run asciiToLower [.tick ⟨none, fun _ => some []⟩, .tick ⟨some "0x10", fun _ => some []⟩,
        .tick ⟨some "0x2", fun _ => some []⟩]).currentBlock ≤ 16 ∨
      ((run asciiToLower [.tick ⟨none, fun _ => some []⟩,
        .tick ⟨some "0x10", fun _ => some []⟩,
        .tick ⟨some "0x2", fun _ => some []⟩]).currentBlock = 0 ∧ (16 : Int) < 0)) ∧
    run asciiToLower ([] ++ [.tick ⟨none, fun _ => some []⟩]) = run asciiToLower [] :=
  ⟨by decide, by decide, by decide, by decide,
    (cursor_monotone_bounded asciiToLower [.tick ⟨none, fun _ => some []⟩,
      .tick ⟨some "0x10", fun _ => some []⟩,
      .tick ⟨some "0x2", fun _ => some []⟩]).2.2.2.2.1 16 (by decide),
    (cursor_monotone_bounded asciiToLower []).2.2.2.2.2.2.2 ⟨none, fun _ => some []⟩
      .transport rfl⟩

/-- C5: in every state reachable from a new parser, whatever is stored for an
address `A` has `A` as lower-cased sender or recipient and `A` is a
subscriber, so `GetTransactions B` never returns a transaction whose sender
and recipient both differ from `B` after lower-casing.  The property is kept
by every step from any state that has it, and by `processBlock` whatever the
state of the mutex. -/
theorem index_invariant (ToLower : String → String) (steps : List Step) :
    (∀ A t, t ∈ (run ToLower steps).txStore A →
      (ToLower t.From = A ∨ ToLower t.To = A) ∧ (run ToLower steps).subscribers A = true) ∧
    (∀ B txs q, GetTransactions ToLower (run ToLower steps) B = some (txs, q) →
      ∀ t ∈ txs, ToLower t.From = ToLower B ∨ ToLower t.To = ToLower B) ∧
    (∀ p, StoreInvariant ToLower p → StoreInvariant ToLower (runFrom ToLower p steps)) ∧
    (∀ p rpc b tr, StoreInvariant ToLower p →
      StoreInvariant ToLower (processBlock ToLower rpc b p tr).2.parser) := by
  have hnew : StoreInvariant ToLower NewEthParser := by
    intro A t ht
    simp [NewEthParser] at ht
  have hrun : StoreInvariant ToLower (run ToLower steps) :=
    runFrom_invariant ToLower steps NewEthParser hnew
  refine ⟨hrun, ?_, runFrom_invariant ToLower steps, ?_⟩
  · intro B txs q hget t ht
    rcases Bool.eq_false_or_eq_true (run ToLower steps).mu with hmu | hmu
    · simp [GetTransactions, Lock_held _ hmu] at hget
    · rw [GetTransactions_free ToLower _ B hmu] at hget
      simp only [Option.some.injEq, Prod.mk.injEq] at hget
      rw [← hget.1] at ht
      exact (hrun _ t ht).1
  · intro p rpc b tr h
    exact processBlock_invariant ToLower rpc b p tr h

/-- C5, on the scenario block: `processBlock` entered with the mutex free in
the state after `Subscribe "0xabc"` stores `tx123` under `"0xabc"`, which is
its lower-cased sender and a subscriber. -/
theorem index_invariant_witness :
    tx123 ∈ (processBlock asciiToLower rpc16 16
      (run asciiToLower [.subscribe "0xabc"]) []).2.parser.txStore "0xabc" ∧
    (asciiToLower tx123.From = "0xabc" ∨ asciiToLower tx123.To = "0xabc") ∧
    (processBlock asciiToLower rpc16 16
      (run asciiToLower [.subscribe "0xabc"]) []).2.parser.subscribers "0xabc" = true :=
  ⟨by decide,
    (index_invariant asciiToLower [.subscribe "0xabc"]).2.2.2
      (run asciiToLower [.subscribe "0xabc"]) rpc16 16 []
      (index_invariant asciiToLower [.subscribe "0xabc"]).1 "0xabc" tx123 (by decide)⟩

/-- C2, what the code does on the scenario of the claim (subscriber `0xabc`,
reported height 16, blocks 1 to 15 empty, block 16 holding `tx123`, every
request succeeding): the tick requests the sixteen blocks, then stops inside
the `Lock` of `processBlock` with the mutex held; the cursor is still 0,
nothing is stored for `0xabc`, and `GetCurrentBlock` and `GetTransactions` do
not return. -/
theorem scenario_tick_never_completes :
    fetchCurrentBlockNumber rpc16 = .ok 16 ∧
    (startPollingTick asciiToLower rpc16 (run asciiToLower [.subscribe "0xabc"])).completed
      = false ∧
    fetched (startPollingTick asciiToLower rpc16
      (run asciiToLower [.subscribe "0xabc"])).trace
      = [1, 2, 3, 4, 5, 6, 7, 8, 9, 10, 11, 12, 13, 14, 15, 16] ∧
    (run asciiToLower [.subscribe "0xabc", .tick rpc16]).mu = true ∧
    (run asciiToLower [.subscribe "0xabc", .tick rpc16]).currentBlock = 0 ∧
    (run asciiToLower [.subscribe "0xabc", .tick rpc16]).txStore "0xabc" = [] ∧
    (GetCurrentBlock (run asciiToLower [.subscribe "0xabc", .tick rpc16])).isNone = true ∧
    (GetTransactions asciiToLower (run asciiToLower [.subscribe "0xabc", .tick rpc16])
      "0xabc").isNone = true := by
  decide

/-- C3, refuted: new parser, reported height 2, block 1 fetched (empty), the
fetch of block 2 fails.  The tick completes with the cursor at 2, not at 1. -/
theorem cursor_passes_failed_block :
    fetchCurrentBlockNumber ⟨some "0x2", fun h => if h = "0x1" then some [] else none⟩
      = .ok 2 ∧
    (⟨some "0x2", fun h => if h = "0x1" then some [] else none⟩ : Rpc).eth_getBlockByNumber
      (hexBlock 1) = some [] ∧
    (⟨some "0x2", fun h => if h = "0x1" then some [] else none⟩ : Rpc).eth_getBlockByNumber
      (hexBlock 2) = none ∧
    (startPollingTick asciiToLower ⟨some "0x2", fun h => if h = "0x1" then some [] else none⟩
      NewEthParser).completed = true ∧
    (startPollingTick asciiToLower ⟨some "0x2", fun h => if h = "0x1" then some [] else none⟩
      NewEthParser).parser.currentBlock = 2 ∧
    (startPollingTick asciiToLower ⟨some "0x2", fun h => if h = "0x1" then some [] else none⟩
      NewEthParser).parser.currentBlock ≠ 2 - 1 := by
  decide

/-- C3, amended: a tick that starts with the mutex free at cursor `C`, is
told a height `H` with `C < H < 2^63 - 1`, and in which every block of
`C+1..H` either fails or holds no transaction while block `N` of that range
fails, logs the error of block `N` (a log line is written for the failed
blocks only), goes on, and completes with the cursor at `H`, not at `N - 1`:
it has requested `N` and every other block of `C+1..H` once each in ascending
order and left subscribers and store alone.  No tick that starts at a cursor
of `H` or more and is told a height other than `2^63 - 1` requests block `N`. -/
theorem cursor_after_failed_block (ToLower : String → String) (rpc : Rpc) (p : EthParser)
    (H N : Int) (hmu : p.mu = false) (hf : fetchCurrentBlockNumber rpc = .ok H)
    (hlt : p.currentBlock < H) (hmax : H ≠ maxInt)
    (hN1 : p.currentBlock < N) (hN2 : N ≤ H)
    (hfail : rpc.eth_getBlockByNumber (hexBlock N) = none)
    (hq : ∀ b, p.currentBlock < b → b ≤ H →
      rpc.eth_getBlockByNumber (hexBlock b) = none ∨
        rpc.eth_getBlockByNumber (hexBlock b) = some []) :
    startPollingTick ToLower rpc p = .done { p with currentBlock := H }
      ([Event.blockNumber, Event.lock] ++
        quietRounds rpc (H - p.currentBlock).toNat (p.currentBlock + 1) ++ [Event.unlock]) ∧
    Event.logBlockError N ∈ (startPollingTick ToLower rpc p).trace ∧
    (∀ b, Event.logBlockError b ∈ (startPollingTick ToLower rpc p).trace →
      rpc.eth_getBlockByNumber (hexBlock b) = none) ∧
    fetched (startPollingTick ToLower rpc p).trace =
      blocksFrom (H - p.currentBlock).toNat (p.currentBlock + 1) ∧
    N ∈ fetched (startPollingTick ToLower rpc p).trace ∧
    (startPollingTick ToLower rpc p).parser.currentBlock ≠ N - 1 ∧
    ∀ rpc2 p2, H ≤ p2.currentBlock → fetchCurrentBlockNumber rpc2 ≠ .ok maxInt →
      N ∉ fetched (startPollingTick ToLower rpc2 p2).trace := by
  have h1 := tick_quiet ToLower rpc p H hmu hf hlt hmax hq
  have hfetched : fetched (startPollingTick ToLower rpc p).trace =
      blocksFrom (H - p.currentBlock).toNat (p.currentBlock + 1) := by
    rw [h1]
    simp only [Outcome.trace, fetched_append, fetched_quietRounds]
    simp [fetched]
  have hlog : ∀ b, Event.logBlockError b ∈ (startPollingTick ToLower rpc p).trace ↔
      Event.logBlockError b ∈
        quietRounds rpc (H - p.currentBlock).toNat (p.currentBlock + 1) := by
    intro b
    rw [h1]
    simp [Outcome.trace]
  refine ⟨h1, ?_, ?_, hfetched, ?_, ?_, ?_⟩
  · rw [hlog N, log_quietRounds]
    exact ⟨by omega, hfail⟩
  · intro b hb
    rw [hlog b, log_quietRounds] at hb
    exact hb.2
  · rw [hfetched, mem_blocksFrom]
    omega
  · rw [h1]
    simp only [Outcome.parser]
    omega
  · intro rpc2 p2 hp2 _ hmem
    have := tick_fetched ToLower rpc2 p2 N hmem
    omega

/-- C3, amended, on the refuting input: block 2 is requested and its failure
logged, the cursor ends at 2, and a later tick, told height 3, requests
block 3 only. -/
theorem cursor_after_failed_block_witness :
    startPollingTick asciiToLower ⟨some "0x2", fun h => if h = "0x1" then some [] else none⟩
      NewEthParser =
      .done { NewEthParser with currentBlock := 2 }
        [Event.blockNumber, Event.lock, Event.getBlock 1, Event.getBlock 2,
          Event.logBlockError 2, Event.unlock] ∧
    Event.logBlockError 2 ∈ (startPollingTick asciiToLower
      ⟨some "0x2", fun h => if h = "0x1" then some [] else none⟩ NewEthParser).trace ∧
    (2 : Int) ∉ fetched (startPollingTick asciiToLower ⟨some "0x3", fun _ => some []⟩
      { NewEthParser with currentBlock := 2 }).trace ∧
    fetched (startPollingTick asciiToLower ⟨some "0x3", fun _ => some []⟩
      { NewEthParser with currentBlock := 2 }).trace = [3] := by
  have h := cursor_after_failed_block asciiToLower
    ⟨some "0x2", fun h => if h = "0x1" then some [] else none⟩ NewEthParser 2 2
    rfl (by decide) (by decide) (by decide) (by decide) (by decide) (by decide)
    (by
      intro b hb1 hb2
      have hb : b = 1 ∨ b = 2 := by
        simp only [NewEthParser] at hb1
        omega
      rcases hb with hb | hb <;> subst hb <;> decide)
  refine ⟨h.1, h.2.1, ?_, by decide⟩
  exact h.2.2.2.2.2.2 ⟨some "0x3", fun _ => some []⟩ { NewEthParser with currentBlock := 2 }
    (le_refl _) (by decide)

/-- C8, what the code does instead: a tick that finds the mutex free and is
told a height above the cursor makes its block requests while it holds the
mutex, which `startPolling` takes before the loop and releases after it. -/
theorem tick_fetches_while_locked (ToLower : String → String) (rpc : Rpc) (p : EthParser)
    (H : Int) (hmu : p.mu = false) (hf : fetchCurrentBlockNumber rpc = .ok H)
    (hlt : p.currentBlock < H) :
    callWhileHeld false (startPollingTick ToLower rpc p).trace = true := by
  obtain ⟨l, hl, _, hfirst⟩ := blockLoop_trace ToLower rpc (H - p.currentBlock).toNat
    (p.currentBlock + 1) { p with mu := true } [Event.blockNumber, Event.lock]
  obtain ⟨l1, hl1⟩ := hfirst (by omega)
  subst hl1
  unfold startPollingTick
  simp only [hf, Lock_free p hmu, gt_iff_lt, hlt, if_true]
  cases hbl : blockLoop ToLower rpc (H - p.currentBlock).toNat
      (p.currentBlock + 1) { p with mu := true } [Event.blockNumber, Event.lock] with
  | blocked q tr =>
    rw [hbl] at hl
    simp only [Outcome.trace] at hl ⊢
    subst hl
    simp [callWhileHeld]
  | done q tr =>
    rw [hbl] at hl
    simp only [Outcome.trace] at hl
    subst hl
    by_cases hmax : H = maxInt <;> simp [hmax, Outcome.trace, callWhileHeld]

/-- C8, on a new parser told height 2 with both blocks empty: the height is
queried with the mutex free, then blocks 1 and 2 are requested between
`Lock` and `Unlock`. -/
theorem tick_fetches_while_locked_witness :
    (startPollingTick asciiToLower ⟨some "0x2", fun _ => some []⟩ NewEthParser).trace =
      [Event.blockNumber, Event.lock, Event.getBlock 1, Event.getBlock 2, Event.unlock] ∧
    callWhileHeld false
      (startPollingTick asciiToLower ⟨some "0x2", fun _ => some []⟩ NewEthParser).trace = true :=
  ⟨by decide,
    tick_fetches_while_locked asciiToLower ⟨some "0x2", fun _ => some []⟩ NewEthParser 2
      rfl (by decide) (by decide)⟩

/-- C9, what the code does instead: a tick that finds the mutex free and a
block with at least one transaction between the cursor and the reported
height calls `Lock` while it holds the mutex and never completes; the cursor stays,
the mutex stays held, and `GetCurrentBlock`, `Subscribe` and
`GetTransactions` do not return from then on. -/
theorem tick_with_transaction_deadlocks (ToLower : String → String) (rpc : Rpc)
    (p : EthParser) (H b : Int) (tx : Transaction) (txs : List Transaction)
    (hmu : p.mu = false) (hf : fetchCurrentBlockNumber rpc = .ok H)
    (hb1 : p.currentBlock < b) (hb2 : b ≤ H)
    (hblock : rpc.eth_getBlockByNumber (hexBlock b) = some (tx :: txs)) :
    (startPollingTick ToLower rpc p).completed = false ∧
    lockWhileHeld false (startPollingTick ToLower rpc p).trace = true ∧
    (startPollingTick ToLower rpc p).parser = { p with mu := true } ∧
    GetCurrentBlock (startPollingTick ToLower rpc p).parser = none ∧
    (∀ a, Subscribe ToLower (startPollingTick ToLower rpc p).parser a = none) ∧
    (∀ a, GetTransactions ToLower (startPollingTick ToLower rpc p).parser a = none) := by
  obtain ⟨l, hl, ht⟩ := tick_deadlock ToLower rpc p H b tx txs hmu hf hb1 hb2 hblock
  rw [ht]
  refine ⟨rfl, ?_, rfl, rfl, fun a => rfl, fun a => rfl⟩
  simp only [Outcome.trace, List.cons_append, List.nil_append, lockWhileHeld, Bool.false_or]
  exact lockWhileHeld_requests l hl

/-- C9, on the handler of `parser_test.go` and a new parser: the tick asks
for the height, locks, requests block 1 and stops in the second `Lock`. -/
theorem tick_with_transaction_deadlocks_witness :
    (startPollingTick asciiToLower testRPCHandler NewEthParser).trace =
      [Event.blockNumber, Event.lock, Event.getBlock 1, Event.lock] ∧
    (startPollingTick asciiToLower testRPCHandler NewEthParser).completed = false ∧
    (startPollingTick asciiToLower testRPCHandler NewEthParser).parser.currentBlock = 0 ∧
    GetCurrentBlock (startPollingTick asciiToLower testRPCHandler NewEthParser).parser = none :=
  have h := tick_with_transaction_deadlocks asciiToLower testRPCHandler NewEthParser 16 1
    tx123 [] rfl (by decide) (by decide) (by decide) rfl
  ⟨by decide, h.1, by decide, h.2.2.2.1⟩

/-! ## Height decoding -/

theorem digitVal_of_hex (c : Char) (h : IsHexDigit c) :
    digitVal c = some (hexDigitValue c) ∧ hexDigitValue c < 16 := by
  unfold IsHexDigit at h
  constructor
  · unfold digitVal hexDigitValue
    simp only
    split_ifs <;> first | omega | rfl | (simp only [Option.some.injEq]; omega)
  · unfold hexDigitValue
    split_ifs <;> omega

theorem hex_of_digitVal (c : Char) (d : Nat) (h : digitVal c = some d) (hd : d < 16) :
    IsHexDigit c := by
  unfold digitVal at h
  unfold IsHexDigit
  simp only at h
  split at h
  · left; assumption
  · split at h
    · simp only [Option.some.injEq] at h
      right; left
      omega
    · split at h
      · simp only [Option.some.injEq] at h
        right; right
        omega
      · simp at h

theorem le_foldl_hex (ds : List Char) :
    ∀ n : Nat, n ≤ ds.foldl (fun n c => 16 * n + hexDigitValue c) n := by
  induction ds with
  | nil => intro n; exact le_refl n
  | cons c cs ih =>
    intro n
    simp only [List.foldl_cons]
    exact le_trans (by omega) (ih _)

/-- On hexadecimal digits whose value stays below `2^63` the loop of
`ParseUint` computes that value. -/
theorem ParseUintLoop_ok (ds : List Char) :
    ∀ n : Nat, (∀ c ∈ ds, IsHexDigit c) →
      ds.foldl (fun n c => 16 * n + hexDigitValue c) n < 9223372036854775808 →
      ParseUintLoop ds n = .ok (ds.foldl (fun n c => 16 * n + hexDigitValue c) n) := by
  induction ds with
  | nil => intro n _ _; rfl
  | cons c cs ih =>
    intro n hhex hlt
    obtain ⟨hd, hd16⟩ := digitVal_of_hex c (hhex c (List.mem_cons_self _ _))
    simp only [List.foldl_cons] at hlt ⊢
    have hle := le_foldl_hex cs (16 * n + hexDigitValue c)
    have hn : ¬ n ≥ 1152921504606846976 := by omega
    have h16 : ¬ hexDigitValue c ≥ 16 := by omega
    have e1 : (n * 16) % 18446744073709551616 = n * 16 := Nat.mod_eq_of_lt (by omega)
    have e2 : (n * 16 + hexDigitValue c) % 18446744073709551616 = 16 * n + hexDigitValue c := by
      rw [Nat.mod_eq_of_lt (by omega)]
      omega
    have hno : ¬ (16 * n + hexDigitValue c < n * 16 ∨
        16 * n + hexDigitValue c > 18446744073709551615) := by omega
    unfold ParseUintLoop
    simp only [hd, h16, hn, if_false, e1, e2, hno]
    exact ih _ (fun c hc => hhex c (List.mem_cons_of_mem _ hc)) hlt

/-- A character that is not a hexadecimal digit makes the loop of `ParseUint`
fail. -/
theorem ParseUintLoop_error (ds : List Char) :
    ∀ n : Nat, (∃ c ∈ ds, ¬ IsHexDigit c) → ∃ e, ParseUintLoop ds n = .error e := by
  induction ds with
  | nil =>
    intro n h
    obtain ⟨c, hc, _⟩ := h
    simp at hc
  | cons c cs ih =>
    intro n h
    unfold ParseUintLoop
    cases hd : digitVal c with
    | none => exact ⟨_, rfl⟩
    | some d =>
      simp only
      by_cases h16 : d ≥ 16
      · exact ⟨.ErrSyntax, if_pos h16⟩
      · rw [if_neg h16]
        have hc : IsHexDigit c := hex_of_digitVal c d hd (by omega)
        have htail : ∃ c ∈ cs, ¬ IsHexDigit c := by
          obtain ⟨c1, hc1, hn1⟩ := h
          rcases List.mem_cons.mp hc1 with h1 | h1
          · subst h1
            exact absurd hc hn1
          · exact ⟨c1, h1, hn1⟩
        split
        · exact ⟨_, rfl⟩
        · split
          · exact ⟨_, rfl⟩
          · exact ih _ htail

theorem ParseUint_error (body : List Char) (h : body = [] ∨ ∃ c ∈ body, ¬ IsHexDigit c) :
    ∃ e, ParseUint body = .error e := by
  cases body with
  | nil => exact ⟨_, rfl⟩
  | cons c cs =>
    rcases h with h | h
    · simp at h
    · exact ParseUintLoop_error (c :: cs) 0 h

theorem ParseInt_dropSign_error (s : List Char)
    (h : dropSign s = [] ∨ ∃ c ∈ dropSign s, ¬ IsHexDigit c) :
    ∃ e, ParseInt s = .error e := by
  cases s with
  | nil => exact ⟨_, rfl⟩
  | cons c rest =>
    have hbody : (if (c == '+') = true ∨ (c == '-') = true then rest else c :: rest) =
        dropSign (c :: rest) := by
      simp [dropSign]
    obtain ⟨e, he⟩ := ParseUint_error _ h
    refine ⟨e, ?_⟩
    unfold ParseInt
    simp only [hbody, he]

end Ethparser
